import Mathlib

/-!
Verification development for the cf-preview-remover repository.

The definitions below are a shallow embedding of the core logic of
src/lib/cloudflare-api.ts (the sanitizer, the request classifier and the
batched deletion engine) and of the selection logic of
src/commands/delete.ts.  The theorems settle the claims of the
specification against that embedding.
-/

namespace CfPreview

/-! ## The sanitizer

Embeds the method sanitize of class CloudflareAPI:
message.replace of the global case-insensitive pattern
Bearer-whitespace-token with the fixed text Bearer [REDACTED].
The scan models ECMAScript semantics of a global replace: the leftmost
match is replaced and scanning resumes after the matched text; the
whitespace run and the token run are maximal, mirroring the greedy
one-or-more repetitions in the pattern. -/

/-- ASCII core of the ECMAScript whitespace class used by the pattern. -/
def isWs (c : Char) : Bool :=
  c == ' ' || c == '\t' || c == '\n' || c == '\r' || c == '\x0b' || c == '\x0c'

/-- Case-insensitive character comparison, mirroring the i flag. -/
def ciEq (c d : Char) : Bool := c.toLower == d.toLower

/-- Consume the six letters of the word bearer case-insensitively. -/
def ciBearer : List Char → Option (List Char)
  | c1 :: c2 :: c3 :: c4 :: c5 :: c6 :: rest =>
    if ciEq c1 'b' && ciEq c2 'e' && ciEq c3 'a' &&
       ciEq c4 'r' && ciEq c5 'e' && ciEq c6 'r'
    then some rest else none
  | _ => none

/-- Try to match the pattern at the head of the list.  On success returns
the matched token (the maximal non-whitespace run after the whitespace
run) and the remainder of the input after the match. -/
def bearerMatch (l : List Char) : Option (List Char × List Char) :=
  match ciBearer l with
  | none => none
  | some r1 =>
    if (r1.takeWhile isWs).isEmpty then none
    else if ((r1.dropWhile isWs).takeWhile (fun c => !isWs c)).isEmpty then none
    else some ((r1.dropWhile isWs).takeWhile (fun c => !isWs c),
               (r1.dropWhile isWs).dropWhile (fun c => !isWs c))

/-- The replacement text Bearer [REDACTED], as a character list. -/
def redacted : List Char :=
  ['B', 'e', 'a', 'r', 'e', 'r', ' ', '[', 'R', 'E', 'D', 'A', 'C', 'T', 'E', 'D', ']']

/-- The token part of the replacement text. -/
def redTok : List Char := ['[', 'R', 'E', 'D', 'A', 'C', 'T', 'E', 'D', ']']

/-- Fuel-indexed scanner: replaces every match, copying unmatched
characters.  The fuel only serves structural recursion; it is irrelevant
as soon as it bounds the length of the input. -/
def sanitizeGo : Nat → List Char → List Char
  | 0, _ => []
  | _ + 1, [] => []
  | fuel + 1, c :: cs =>
    match bearerMatch (c :: cs) with
    | some (_, rest) => redacted ++ sanitizeGo fuel rest
    | none => c :: sanitizeGo fuel cs

/-- The sanitizer on character lists. -/
def sanitizeAux (l : List Char) : List Char := sanitizeGo l.length l

/-- Embeds sanitize of src/lib/cloudflare-api.ts. -/
def sanitize (message : String) : String := String.mk (sanitizeAux message.data)

/-- Whether a list starts with a whitespace character. -/
def headIsWs : List Char → Bool
  | [] => false
  | c :: _ => isWs c

/-- No bearer-token-shaped substring of a message carries anything but the
redaction marker: every occurrence of the credential pattern in the message
has the fixed redaction text as its token part. -/
def noLeak (m : String) : Prop :=
  ∀ pre suf tok rest : List Char, m.data = pre ++ suf →
    bearerMatch suf = some (tok, rest) → tok = redTok

/-- Decidable check for noLeak, scanning every suffix. -/
def noLeakCheck (m : String) : Bool :=
  m.data.tails.all fun suf =>
    match bearerMatch suf with
    | none => true
    | some (tok, _) => tok == redTok

/-! ## The remote resource client

Embeds the request method of class CloudflareAPI.  An HttpResponse value
abstracts one fetch result: the numeric status, the Retry-After header
already parsed to an optional integer, the status text, and the body as
an optional envelope where none stands for a body that fails to parse as
JSON. -/

/-- One entry of the errors array of the response envelope: code and message. -/
structure ApiErrEntry where
  code : Nat
  message : String
deriving DecidableEq

/-- The JSON envelope shape of interface CloudflareResponse. -/
structure Envelope where
  success : Bool
  errors : List ApiErrEntry
deriving DecidableEq

/-- One HTTP response as seen by the request method. -/
structure HttpResponse where
  status : Nat
  retryAfter : Option Nat
  statusText : String
  body : Option Envelope
deriving DecidableEq

/-- Outcome of the request method: result, or one of the thrown errors.
A RateLimitError is rateLimited with its optional retryAfter field; every
other CloudflareAPIError is apiError with its message and statusCode. -/
inductive RequestResult where
  | ok
  | rateLimited (retryAfter : Option Nat)
  | apiError (message : String) (statusCode : Option Nat)
deriving DecidableEq

/-- ECMAScript or-else on an optional string: a missing or empty first
message falls back to the default, mirroring the falsy test. -/
def jsOrStr (x : Option String) (d : String) : String :=
  match x with
  | none => d
  | some s => if s = "" then d else s

/-- Message of the 403 branch of request. -/
def permissionDeniedMessage : String :=
  "Permission denied. Please check your API token has the required permissions (Workers Scripts: Read and Edit)."

/-- Message of the 404 branch of request. -/
def notFoundMessage : String :=
  "Resource not found. Please check the script name and account ID."

/-- Message of the JSON-parse-failure branch of request. -/
def parseFailMessage (statusText : String) : String :=
  "Failed to parse API response: " ++ statusText

/-- Default when the envelope carries no first error message. -/
def unknownApiErrorMessage : String := "Unknown API error"

/-- First error message surfaced from a failed envelope. -/
def surfacedEnvelopeMessage (env : Envelope) : String :=
  jsOrStr (env.errors.head?.map ApiErrEntry.message) unknownApiErrorMessage

/-- Embeds the request method of src/lib/cloudflare-api.ts: status 429 is
checked first and throws RateLimitError with the parsed Retry-After value,
then 403 and 404 throw fixed-message errors, then the body is parsed and a
non-success envelope surfaces its first error message sanitized. -/
def request (resp : HttpResponse) : RequestResult :=
  if resp.status = 429 then .rateLimited resp.retryAfter
  else if resp.status = 403 then .apiError permissionDeniedMessage (some 403)
  else if resp.status = 404 then .apiError notFoundMessage (some 404)
  else
    match resp.body with
    | none => .apiError (sanitize (parseFailMessage resp.statusText)) (some resp.status)
    | some env =>
      if env.success then .ok
      else .apiError (sanitize (surfacedEnvelopeMessage env)) (some resp.status)

/-- Modelled from the spec: the abstract taxonomy of client outcomes,
NotFound, PermissionDenied, RateLimited with the optional suggested wait,
and Transport carrying the surfaced message. -/
inductive SpecOutcome where
  | ok
  | rateLimited (retryAfterSeconds : Option Nat)
  | permissionDenied
  | notFound
  | transport (message : String)
deriving DecidableEq

/-- Interpretation of a code-side result in the abstract taxonomy of the
spec: the status code stored on the error selects the kind. -/
def toSpecOutcome : RequestResult → SpecOutcome
  | .ok => .ok
  | .rateLimited ra => .rateLimited ra
  | .apiError m c =>
    if c = some 403 then .permissionDenied
    else if c = some 404 then .notFound
    else .transport m

/-- Modelled from the spec: classification of a response, 429 to
RateLimited with the header value, 403 to PermissionDenied, 404 to
NotFound, an unparseable body or a non-success envelope to Transport, the
latter surfacing the first reported error message after sanitization. -/
def specClassify (resp : HttpResponse) : SpecOutcome :=
  if resp.status = 429 then .rateLimited resp.retryAfter
  else if resp.status = 403 then .permissionDenied
  else if resp.status = 404 then .notFound
  else
    match resp.body with
    | none => .transport (sanitize (parseFailMessage resp.statusText))
    | some env =>
      if env.success then .ok
      else .transport (sanitize (surfacedEnvelopeMessage env))

/-! ## The batch deletion engine

Embeds deleteDeployments of class CloudflareAPI.  The remote is modelled
as an oracle giving, for each identifier and each attempt index taken
while that identifier is processed, the outcome of one deleteDeployment
call: none is success, some e is the thrown error. -/

/-- The errors thrown by deleteDeployment: RateLimitError carrying the
optional retryAfter, or a CloudflareAPIError with its message. -/
inductive ThrownError where
  | rateLimitError (retryAfter : Option Nat)
  | cloudflareAPIError (message : String)
deriving DecidableEq

/-- The message field of a thrown error; RateLimitError has a fixed one. -/
def errorMessage : ThrownError → String
  | .rateLimitError _ => "Rate limit exceeded. Please wait before retrying."
  | .cloudflareAPIError m => m

/-- The instanceof RateLimitError test. -/
def isRateLimitError : ThrownError → Bool
  | .rateLimitError _ => true
  | .cloudflareAPIError _ => false

/-- Embeds formatError: errors are Error instances, so the sanitized
message is returned. -/
def formatError (e : ThrownError) : String := sanitize (errorMessage e)

/-- Outcome of one deleteDeployment call: none is success. -/
abbrev CallOutcome := Option ThrownError

/-- Behaviour of the remote: outcome per identifier and per attempt index
within the processing of that identifier. -/
abbrev Oracle := String → Nat → CallOutcome

/-- Result union of tryDelete. -/
inductive TryRes where
  | ok
  | fail (error : String) (isRateLimit : Bool)
deriving DecidableEq

/-- Embeds tryDelete: success, or failure with the formatted message and
the rate-limit flag. -/
def tryDelete (outcome : CallOutcome) : TryRes :=
  match outcome with
  | none => .ok
  | some e => .fail (formatError e) (isRateLimitError e)

/-- ECMAScript or-else on an optional number: missing and zero are falsy
and fall back to the default, mirroring retryAfter or-else 60. -/
def jsOr (x : Option Nat) (d : Nat) : Nat :=
  match x with
  | none => d
  | some n => if n = 0 then d else n

/-- Fixed inter-request pacing of the engine, in milliseconds. -/
def requestDelay : Nat := 200

/-- Observable events of one engine run: a deleteDeployment attempt, a
delay call with its duration, or a progress callback invocation. -/
inductive Ev where
  | attempt (id : String)
  | delay (ms : Nat)
  | progress (completed : Nat) (total : Nat) (id : String)
deriving DecidableEq

/-- Embeds the body of the loop of deleteDeployments for one identifier,
yielding the emitted events and the final result value.  Mirrors the
source faithfully: on a rate-limited first attempt a second
deleteDeployment call is made at once; if that call succeeds the original
failure result is kept unchanged; if it throws a RateLimitError the engine
waits for the or-else of the new retryAfter and 60, times 1000, and makes
a third attempt through tryDelete; any other thrown error also keeps the
original failure result. -/
def processOne (oracle : Oracle) (id : String) : List Ev × TryRes :=
  match tryDelete (oracle id 0) with
  | .ok => ([.attempt id], .ok)
  | .fail msg isRL =>
    if isRL then
      match oracle id 1 with
      | none => ([.attempt id, .attempt id], .fail msg isRL)
      | some (.rateLimitError ra) =>
        ([.attempt id, .attempt id, .delay (jsOr ra 60 * 1000), .attempt id],
          tryDelete (oracle id 2))
      | some (.cloudflareAPIError _) => ([.attempt id, .attempt id], .fail msg isRL)
    else ([.attempt id], .fail msg isRL)

/-- The batch report of deleteDeployments. -/
structure Report where
  success : List String
  failed : List (String × String)
deriving DecidableEq

/-- The loop of deleteDeployments over the identifier list, carrying the
current index and the total count: a successful identifier is pushed onto
success and the progress callback fires with index plus one and the total;
a failed identifier is pushed onto failed with its message; after every
identifier that is not the last one the engine delays for requestDelay. -/
def runFrom (oracle : Oracle) (total : Nat) : Nat → List String → Report × List Ev
  | _, [] => (⟨[], []⟩, [])
  | i, id :: rest =>
    match processOne oracle id with
    | (evs, .ok) =>
      (⟨id :: (runFrom oracle total (i + 1) rest).1.success,
        (runFrom oracle total (i + 1) rest).1.failed⟩,
        evs ++ [Ev.progress (i + 1) total id]
          ++ (if i < total - 1 then [Ev.delay requestDelay] else [])
          ++ (runFrom oracle total (i + 1) rest).2)
    | (evs, .fail msg _) =>
      (⟨(runFrom oracle total (i + 1) rest).1.success,
        (id, msg) :: (runFrom oracle total (i + 1) rest).1.failed⟩,
        evs ++ (if i < total - 1 then [Ev.delay requestDelay] else [])
          ++ (runFrom oracle total (i + 1) rest).2)

/-- Embeds deleteDeployments of src/lib/cloudflare-api.ts, returning the
report together with the trace of observable events. -/
def deleteDeployments (oracle : Oracle) (deploymentIds : List String) :
    Report × List Ev :=
  runFrom oracle deploymentIds.length 0 deploymentIds

/-- Whether one processed identifier ends successfully. -/
def succeeds (oracle : Oracle) (id : String) : Bool :=
  match (processOne oracle id).2 with
  | .ok => true
  | .fail _ _ => false

def isAttemptEv : Ev → Bool
  | .attempt _ => true
  | _ => false

def isDelayEv : Ev → Bool
  | .delay _ => true
  | _ => false

def isProgressEv : Ev → Bool
  | .progress _ _ _ => true
  | _ => false

/-- Whether an event is the fixed 200 millisecond pacing delay. -/
def isPaceEv : Ev → Bool
  | .delay ms => ms == requestDelay
  | _ => false

/-- Number of deleteDeployment attempts in a trace. -/
def attemptCount (evs : List Ev) : Nat := evs.countP isAttemptEv

/-- Number of pacing delays in a trace. -/
def paceCount (evs : List Ev) : Nat := evs.countP isPaceEv

/-! ## The selection and safety layer

Embeds the dataflow of deleteCommand in src/commands/delete.ts. -/

/-- A deployment as listed by the client. -/
structure Deployment where
  id : String
  created_on : String
  author_email : String
deriving DecidableEq

/-- Embeds deployments.slice(1) of deleteCommand: every entry except the
first, active one is deletable. -/
def deletableDeployments (deployments : List Deployment) : List Deployment :=
  deployments.drop 1

/-- Embeds toDelete.map of deleteCommand: the identifiers handed to the
engine for a chosen subset. -/
def dispatchIds (toDelete : List Deployment) : List String :=
  toDelete.map Deployment.id

/-! ## Claim fixtures -/

/-- A remote on which every delete call succeeds. -/
def oracleAllOk : Oracle := fun _ _ => none

/-- The active resource of the demonstration listing. -/
def activeDeployment : Deployment :=
  ⟨"deploy-active", "2024-01-02T00:00:00Z", "dev@example.com"⟩

/-- An older, deletable resource of the demonstration listing. -/
def oldDeployment : Deployment :=
  ⟨"deploy-old", "2024-01-01T00:00:00Z", "dev@example.com"⟩

/-- A demonstration listing: position 0 is the active resource. -/
def demoDeployments : List Deployment := [activeDeployment, oldDeployment]

/-- A remote that rate limits the first attempt suggesting 5 seconds, rate
limits the second attempt suggesting 7 seconds, and then succeeds. -/
def rateLimitTwiceOracle : Oracle := fun _ n =>
  match n with
  | 0 => some (.rateLimitError (some 5))
  | 1 => some (.rateLimitError (some 7))
  | _ => none

/-- A remote that rate limits the first attempt without a suggested wait
and succeeds on every later attempt. -/
def retrySucceedsOracle : Oracle := fun _ n =>
  match n with
  | 0 => some (.rateLimitError none)
  | _ => none

/-- A remote on which exactly the identifier a fails. -/
def failFirstOracle : Oracle := fun id _ =>
  if id = "a" then some (.cloudflareAPIError "boom") else none

/-- A remote whose every failure message embeds a bearer credential. -/
def leakOracle : Oracle := fun _ _ =>
  some (.cloudflareAPIError "Bearer sekret token")

/-! ## Theorems -/

theorem ciBearer_some {c : Char} {cs r : List Char} (h : ciBearer (c :: cs) = some r) :
    ∃ c2 c3 c4 c5 c6, cs = c2 :: c3 :: c4 :: c5 :: c6 :: r ∧
      ciEq c 'b' = true ∧ ciEq c2 'e' = true ∧ ciEq c3 'a' = true ∧
      ciEq c4 'r' = true ∧ ciEq c5 'e' = true ∧ ciEq c6 'r' = true := by
  match cs with
  | [] => simp [ciBearer] at h
  | [x1] => simp [ciBearer] at h
  | [x1, x2] => simp [ciBearer] at h
  | [x1, x2, x3] => simp [ciBearer] at h
  | [x1, x2, x3, x4] => simp [ciBearer] at h
  | x1 :: x2 :: x3 :: x4 :: x5 :: rest =>
    simp only [ciBearer] at h
    by_cases hcond : (ciEq c 'b' && ciEq x1 'e' && ciEq x2 'a' &&
        ciEq x3 'r' && ciEq x4 'e' && ciEq x5 'r') = true
    · rw [if_pos hcond] at h
      simp only [Bool.and_eq_true] at hcond
      obtain ⟨⟨⟨⟨⟨h1, h2⟩, h3⟩, h4⟩, h5⟩, h6⟩ := hcond
      injection h with h
      exact ⟨x1, x2, x3, x4, x5, by rw [h], h1, h2, h3, h4, h5, h6⟩
    · rw [if_neg hcond] at h
      exact absurd h (by simp)

theorem ciBearer_intro {c c2 c3 c4 c5 c6 : Char} {r : List Char}
    (h1 : ciEq c 'b' = true) (h2 : ciEq c2 'e' = true) (h3 : ciEq c3 'a' = true)
    (h4 : ciEq c4 'r' = true) (h5 : ciEq c5 'e' = true) (h6 : ciEq c6 'r' = true) :
    ciBearer (c :: c2 :: c3 :: c4 :: c5 :: c6 :: r) = some r := by
  simp [ciBearer, h1, h2, h3, h4, h5, h6]

theorem ciBearer_none_of_not_b {c : Char} (cs : List Char) (h : ciEq c 'b' = false) :
    ciBearer (c :: cs) = none := by
  match cs with
  | [] => simp [ciBearer]
  | [x1] => simp [ciBearer]
  | [x1, x2] => simp [ciBearer]
  | [x1, x2, x3] => simp [ciBearer]
  | [x1, x2, x3, x4] => simp [ciBearer]
  | x1 :: x2 :: x3 :: x4 :: x5 :: rest => simp [ciBearer, h]

theorem bearerMatch_none_of_not_b {c : Char} (cs : List Char) (h : ciEq c 'b' = false) :
    bearerMatch (c :: cs) = none := by
  simp [bearerMatch, ciBearer_none_of_not_b cs h]

theorem bearerMatch_some_head {c : Char} {cs : List Char} {tok rest : List Char}
    (h : bearerMatch (c :: cs) = some (tok, rest)) : ciEq c 'b' = true := by
  by_cases hb : ciEq c 'b' = true
  · exact hb
  · rw [bearerMatch_none_of_not_b cs (by simpa using hb)] at h
    exact absurd h (by simp)

theorem bearerMatch_length {c : Char} {cs : List Char} {tok rest : List Char}
    (h : bearerMatch (c :: cs) = some (tok, rest)) : rest.length ≤ cs.length := by
  cases hcb : ciBearer (c :: cs) with
  | none => simp only [bearerMatch, hcb] at h; exact Option.noConfusion h
  | some r1 =>
    simp only [bearerMatch, hcb] at h
    obtain ⟨c2, c3, c4, c5, c6, hcs, -⟩ := ciBearer_some hcb
    by_cases h1 : (r1.takeWhile isWs).isEmpty = true
    · rw [if_pos h1] at h; exact absurd h (by simp)
    · rw [if_neg h1] at h
      by_cases h2 : ((r1.dropWhile isWs).takeWhile (fun c => !isWs c)).isEmpty = true
      · rw [if_pos h2] at h; exact absurd h (by simp)
      · rw [if_neg h2] at h
        injection h with h
        have hsnd := congrArg Prod.snd h
        simp only at hsnd
        have hd1 : (r1.dropWhile isWs).length ≤ r1.length :=
          (List.dropWhile_sublist (l := r1) isWs).length_le
        have hd2 : ((r1.dropWhile isWs).dropWhile (fun c => !isWs c)).length ≤
            (r1.dropWhile isWs).length :=
          (List.dropWhile_sublist (l := r1.dropWhile isWs) _).length_le
        rw [hsnd] at hd2
        have hr1 : cs.length = r1.length + 5 := by
          subst hcs; simp
        omega

theorem sanitizeGo_congr : ∀ (f1 f2 : Nat) (l : List Char), l.length ≤ f1 →
    l.length ≤ f2 → sanitizeGo f1 l = sanitizeGo f2 l := by
  intro f1
  induction f1 with
  | zero =>
    intro f2 l hl1 hl2
    have : l = [] := List.length_eq_zero.mp (Nat.le_zero.mp hl1)
    subst this
    cases f2 <;> rfl
  | succ f ih =>
    intro f2 l hl1 hl2
    match l with
    | [] => cases f2 <;> rfl
    | c :: cs =>
      simp only [List.length_cons] at hl1 hl2
      match f2 with
      | 0 => omega
      | g + 1 =>
        cases hm : bearerMatch (c :: cs) with
        | none =>
          show (match bearerMatch (c :: cs) with
            | some (_, rest) => redacted ++ sanitizeGo f rest
            | none => c :: sanitizeGo f cs) =
            (match bearerMatch (c :: cs) with
            | some (_, rest) => redacted ++ sanitizeGo g rest
            | none => c :: sanitizeGo g cs)
          rw [hm]
          show c :: sanitizeGo f cs = c :: sanitizeGo g cs
          rw [ih g cs (by omega) (by omega)]
        | some pr =>
          obtain ⟨tok, rest⟩ := pr
          have hlen : rest.length ≤ cs.length := bearerMatch_length hm
          show (match bearerMatch (c :: cs) with
            | some (_, rest) => redacted ++ sanitizeGo f rest
            | none => c :: sanitizeGo f cs) =
            (match bearerMatch (c :: cs) with
            | some (_, rest) => redacted ++ sanitizeGo g rest
            | none => c :: sanitizeGo g cs)
          rw [hm]
          show redacted ++ sanitizeGo f rest = redacted ++ sanitizeGo g rest
          rw [ih g rest (by omega) (by omega)]

theorem sanitizeGo_fuel (f : Nat) (l : List Char) (h : l.length ≤ f) :
    sanitizeGo f l = sanitizeAux l :=
  sanitizeGo_congr f l.length l h (le_refl _)

theorem sanitizeAux_nil : sanitizeAux [] = [] := rfl

theorem sanitizeAux_cons_none {c : Char} {cs : List Char}
    (h : bearerMatch (c :: cs) = none) :
    sanitizeAux (c :: cs) = c :: sanitizeAux cs := by
  have h1 : sanitizeAux (c :: cs) = c :: sanitizeGo cs.length cs := by
    simp only [sanitizeAux, List.length_cons, sanitizeGo, h]
  rw [h1, sanitizeGo_fuel cs.length cs (le_refl _)]

theorem sanitizeAux_cons_some {c : Char} {cs tok rest : List Char}
    (h : bearerMatch (c :: cs) = some (tok, rest)) :
    sanitizeAux (c :: cs) = redacted ++ sanitizeAux rest := by
  have hlen : rest.length ≤ cs.length := bearerMatch_length h
  have h1 : sanitizeAux (c :: cs) = redacted ++ sanitizeGo cs.length rest := by
    simp only [sanitizeAux, List.length_cons, sanitizeGo, h]
  rw [h1, sanitizeGo_fuel cs.length rest hlen]

theorem isWs_not_b {c : Char} (h : isWs c = true) : ciEq c 'b' = false := by
  simp only [isWs, Bool.or_eq_true, beq_iff_eq] at h
  rcases h with ((((h | h) | h) | h) | h) | h <;> subst h <;> decide

theorem ciEq_false_of {x d e : Char} (h1 : ciEq x d = true) (h2 : ciEq d e = false) :
    ciEq x e = false := by
  simp only [ciEq, beq_iff_eq] at h1
  simp only [ciEq, beq_eq_false_iff_ne] at h2 ⊢
  rw [h1]
  exact h2

theorem isWs_false_of_b {c : Char} (h : ciEq c 'b' = true) : isWs c = false := by
  cases hw : isWs c with
  | false => rfl
  | true => rw [isWs_not_b hw] at h; exact Bool.noConfusion h

theorem takeWhile_isWs_empty_iff (l : List Char) :
    (l.takeWhile isWs).isEmpty = true ↔ headIsWs l = false := by
  cases l with
  | nil => simp [headIsWs]
  | cons c cs =>
    cases hc : isWs c with
    | true => simp [List.takeWhile_cons, hc, headIsWs]
    | false => simp [List.takeWhile_cons, hc, headIsWs]

theorem sanitizeAux_head_ws (l : List Char) : headIsWs (sanitizeAux l) = headIsWs l := by
  cases l with
  | nil => rfl
  | cons c cs =>
    cases hm : bearerMatch (c :: cs) with
    | none => rw [sanitizeAux_cons_none hm]; rfl
    | some pr =>
      obtain ⟨tok, rest⟩ := pr
      rw [sanitizeAux_cons_some hm]
      have hb : ciEq c 'b' = true := bearerMatch_some_head hm
      show headIsWs ('B' :: _) = headIsWs (c :: cs)
      show isWs 'B' = isWs c
      rw [isWs_false_of_b hb]
      decide

theorem sanitizeAux_all_ws : ∀ (l : List Char), (∀ c ∈ l, isWs c = true) →
    sanitizeAux l = l := by
  intro l
  induction l with
  | nil => intro _; rfl
  | cons c cs ih =>
    intro h
    have hc : isWs c = true := h c (by simp)
    rw [sanitizeAux_cons_none (bearerMatch_none_of_not_b cs (isWs_not_b hc))]
    rw [ih (fun d hd => h d (by simp [hd]))]

theorem sanitizeAux_head_not_b {l : List Char} {d : Char} {ds : List Char}
    (h : sanitizeAux l = d :: ds) (hd : ciEq d 'b' = false) :
    ∃ t, l = d :: t ∧ ds = sanitizeAux t := by
  cases l with
  | nil => rw [sanitizeAux_nil] at h; exact List.noConfusion h
  | cons c cs =>
    cases hm : bearerMatch (c :: cs) with
    | none =>
      rw [sanitizeAux_cons_none hm] at h
      injection h with h1 h2
      exact ⟨cs, by rw [h1], h2.symm⟩
    | some pr =>
      obtain ⟨tok, rest⟩ := pr
      rw [sanitizeAux_cons_some hm] at h
      have : d = 'B' := by
        have := congrArg List.head? h
        simp only [redacted, List.cons_append, List.head?_cons] at this
        injection this with this
        exact this.symm
      rw [this] at hd
      exact absurd hd (by decide)

theorem ciBearer_sanitize {c : Char} {cs R : List Char}
    (h : ciBearer (c :: sanitizeAux cs) = some R) :
    ∃ t, ciBearer (c :: cs) = some t ∧ R = sanitizeAux t := by
  obtain ⟨c2, c3, c4, c5, c6, hshape, hb, h2, h3, h4, h5, h6⟩ := ciBearer_some h
  obtain ⟨t1, ht1, hd1⟩ := sanitizeAux_head_not_b hshape (ciEq_false_of h2 (by decide))
  obtain ⟨t2, ht2, hd2⟩ := sanitizeAux_head_not_b hd1.symm (ciEq_false_of h3 (by decide))
  obtain ⟨t3, ht3, hd3⟩ := sanitizeAux_head_not_b hd2.symm (ciEq_false_of h4 (by decide))
  obtain ⟨t4, ht4, hd4⟩ := sanitizeAux_head_not_b hd3.symm (ciEq_false_of h5 (by decide))
  obtain ⟨t5, ht5, hd5⟩ := sanitizeAux_head_not_b hd4.symm (ciEq_false_of h6 (by decide))
  refine ⟨t5, ?_, hd5⟩
  rw [ht1, ht2, ht3, ht4, ht5]
  exact ciBearer_intro hb h2 h3 h4 h5 h6

theorem dropWhile_not_isWs_head : ∀ (l : List Char),
    (l.dropWhile (fun c => !isWs c)) = [] ∨
    headIsWs (l.dropWhile (fun c => !isWs c)) = true := by
  intro l
  induction l with
  | nil => exact Or.inl rfl
  | cons c cs ih =>
    cases hc : isWs c with
    | true =>
      right
      rw [List.dropWhile_cons_of_neg (by simp [hc])]
      simp [headIsWs, hc]
    | false =>
      rw [List.dropWhile_cons_of_pos (by simp [hc])]
      exact ih

theorem bearerMatch_rest {l tok rest : List Char} (h : bearerMatch l = some (tok, rest)) :
    rest = [] ∨ headIsWs rest = true := by
  cases hcb : ciBearer l with
  | none => simp only [bearerMatch, hcb] at h; exact Option.noConfusion h
  | some r1 =>
    simp only [bearerMatch, hcb] at h
    by_cases h1 : (r1.takeWhile isWs).isEmpty = true
    · rw [if_pos h1] at h; exact absurd h (by simp)
    · rw [if_neg h1] at h
      by_cases h2 : ((r1.dropWhile isWs).takeWhile (fun c => !isWs c)).isEmpty = true
      · rw [if_pos h2] at h; exact absurd h (by simp)
      · rw [if_neg h2] at h
        injection h with h
        have hsnd := congrArg Prod.snd h
        simp only at hsnd
        rw [← hsnd]
        exact dropWhile_not_isWs_head (r1.dropWhile isWs)

/-- A match that fails at a position still fails there after the tail has
been sanitized: replacements never create fresh matches to the left. -/
theorem bearerMatch_none_sanitize {c : Char} {cs : List Char}
    (h : bearerMatch (c :: cs) = none) :
    bearerMatch (c :: sanitizeAux cs) = none := by
  cases hcb : ciBearer (c :: sanitizeAux cs) with
  | none => simp only [bearerMatch, hcb]
  | some R =>
    obtain ⟨t5, ht5, hR⟩ := ciBearer_sanitize hcb
    simp only [bearerMatch, ht5] at h
    simp only [bearerMatch, hcb]
    by_cases hw : (t5.takeWhile isWs).isEmpty = true
    · have hA : (R.takeWhile isWs).isEmpty = true := by
        rw [takeWhile_isWs_empty_iff, hR, sanitizeAux_head_ws]
        rw [takeWhile_isWs_empty_iff] at hw
        exact hw
      rw [if_pos hA]
    · rw [if_neg hw] at h
      by_cases hk : ((t5.dropWhile isWs).takeWhile (fun c => !isWs c)).isEmpty = true
      · -- the whole of t5 is whitespace, hence fixed by the sanitizer
        have hdrop : t5.dropWhile isWs = [] := by
          cases hdw : t5.dropWhile isWs with
          | nil => rfl
          | cons d ds =>
            have hdhead : isWs d = false := by
              have h0 := List.head?_dropWhile_not isWs t5
              rw [hdw] at h0
              simpa using h0
            rw [hdw, List.takeWhile_cons_of_pos (by simp [hdhead])] at hk
            simp at hk
        have hall : ∀ x ∈ t5, isWs x = true := by
          have h0 := List.dropWhile_eq_nil_iff.mp hdrop
          intro x hx
          simpa using h0 x hx
        have hfix : sanitizeAux t5 = t5 := sanitizeAux_all_ws t5 hall
        rw [hR, hfix, if_neg hw, if_pos hk]
      · rw [if_neg hk] at h
        exact absurd h (by simp)

/-- The replacement text itself matches the pattern exactly, consuming
nothing of a following remainder that is empty or starts with whitespace. -/
theorem bearerMatch_redacted {m : List Char} (hm : m = [] ∨ headIsWs m = true) :
    bearerMatch (redacted ++ m) = some (redTok, m) := by
  have hcb : ciBearer (redacted ++ m) =
      some (' ' :: '[' :: 'R' :: 'E' :: 'D' :: 'A' :: 'C' :: 'T' :: 'E' :: 'D' :: ']' :: m) := by
    show ciBearer ('B' :: 'e' :: 'a' :: 'r' :: 'e' :: 'r' ::
      (' ' :: '[' :: 'R' :: 'E' :: 'D' :: 'A' :: 'C' :: 'T' :: 'E' :: 'D' :: ']' :: m)) = _
    exact ciBearer_intro (by decide) (by decide) (by decide) (by decide) (by decide) (by decide)
  have htail : ('[' :: 'R' :: 'E' :: 'D' :: 'A' :: 'C' :: 'T' :: 'E' :: 'D' :: ']' :: m
      : List Char).takeWhile (fun c => !isWs c) = redTok ∧
      ('[' :: 'R' :: 'E' :: 'D' :: 'A' :: 'C' :: 'T' :: 'E' :: 'D' :: ']' :: m
      : List Char).dropWhile (fun c => !isWs c) = m := by
    have hstop : m.takeWhile (fun c => !isWs c) = [] ∧
        m.dropWhile (fun c => !isWs c) = m := by
      rcases hm with hm | hm
      · subst hm; exact ⟨rfl, rfl⟩
      · cases m with
        | nil => exact ⟨rfl, rfl⟩
        | cons d ds =>
          have hd : isWs d = true := hm
          constructor
          · rw [List.takeWhile_cons_of_neg (by simp [hd])]
          · rw [List.dropWhile_cons_of_neg (by simp [hd])]
    constructor
    · rw [List.takeWhile_cons_of_pos (by decide), List.takeWhile_cons_of_pos (by decide),
        List.takeWhile_cons_of_pos (by decide), List.takeWhile_cons_of_pos (by decide),
        List.takeWhile_cons_of_pos (by decide), List.takeWhile_cons_of_pos (by decide),
        List.takeWhile_cons_of_pos (by decide), List.takeWhile_cons_of_pos (by decide),
        List.takeWhile_cons_of_pos (by decide), List.takeWhile_cons_of_pos (by decide),
        hstop.1]
      rfl
    · rw [List.dropWhile_cons_of_pos (by decide), List.dropWhile_cons_of_pos (by decide),
        List.dropWhile_cons_of_pos (by decide), List.dropWhile_cons_of_pos (by decide),
        List.dropWhile_cons_of_pos (by decide), List.dropWhile_cons_of_pos (by decide),
        List.dropWhile_cons_of_pos (by decide), List.dropWhile_cons_of_pos (by decide),
        List.dropWhile_cons_of_pos (by decide), List.dropWhile_cons_of_pos (by decide),
        hstop.2]
  simp only [bearerMatch, hcb]
  rw [List.takeWhile_cons_of_pos (by decide), List.dropWhile_cons_of_pos (by decide)]
  rw [List.dropWhile_cons_of_neg (by decide)]
  rw [htail.1, htail.2]
  simp [redTok]

/-- Sanitizing a string that starts with the replacement block keeps the
block and recurses on the remainder, provided the remainder is empty or
starts with whitespace. -/
theorem sanitizeAux_redacted_append {m : List Char} (hm : m = [] ∨ headIsWs m = true) :
    sanitizeAux (redacted ++ m) = redacted ++ sanitizeAux m := by
  have h := bearerMatch_redacted hm
  show sanitizeAux ('B' :: ('e' :: 'a' :: 'r' :: 'e' :: 'r' :: ' ' :: '[' :: 'R' ::
    'E' :: 'D' :: 'A' :: 'C' :: 'T' :: 'E' :: 'D' :: ']' :: m)) = _
  rw [sanitizeAux_cons_some (by exact h)]

theorem sanitizeAux_idem_aux : ∀ (n : Nat) (l : List Char), l.length ≤ n →
    sanitizeAux (sanitizeAux l) = sanitizeAux l := by
  intro n
  induction n with
  | zero =>
    intro l h
    have : l = [] := List.length_eq_zero.mp (Nat.le_zero.mp h)
    subst this; rfl
  | succ n ih =>
    intro l h
    match l with
    | [] => rfl
    | c :: cs =>
      simp only [List.length_cons] at h
      cases hm : bearerMatch (c :: cs) with
      | none =>
        rw [sanitizeAux_cons_none hm,
          sanitizeAux_cons_none (bearerMatch_none_sanitize hm), ih cs (by omega)]
      | some pr =>
        obtain ⟨tok, rest⟩ := pr
        have hlen := bearerMatch_length hm
        rw [sanitizeAux_cons_some hm]
        have hs : sanitizeAux rest = [] ∨ headIsWs (sanitizeAux rest) = true := by
          rcases bearerMatch_rest hm with h0 | h0
          · left; rw [h0]; rfl
          · right; rw [sanitizeAux_head_ws]; exact h0
        rw [sanitizeAux_redacted_append hs, ih rest (by omega)]

theorem sanitizeAux_idem (l : List Char) : sanitizeAux (sanitizeAux l) = sanitizeAux l :=
  sanitizeAux_idem_aux l.length l (le_refl _)

theorem bearerMatch_sanitized_empty_or_ws {m : List Char}
    (hm : m = [] ∨ headIsWs m = true) : bearerMatch m = none := by
  rcases hm with hm | hm
  · subst hm; rfl
  · cases m with
    | nil => rfl
    | cons d ds => exact bearerMatch_none_of_not_b ds (isWs_not_b hm)

theorem sanitize_no_leak_aux : ∀ (n : Nat) (l pre suf tok rest : List Char),
    l.length ≤ n → sanitizeAux l = pre ++ suf → bearerMatch suf = some (tok, rest) →
    tok = redTok := by
  intro n
  induction n with
  | zero =>
    intro l pre suf tok rest hn hsplit hmatch
    have : l = [] := List.length_eq_zero.mp (Nat.le_zero.mp hn)
    subst this
    rw [sanitizeAux_nil] at hsplit
    have : suf = [] := by
      rcases List.append_eq_nil.mp hsplit.symm with ⟨-, h2⟩
      exact h2
    rw [this] at hmatch
    exact Option.noConfusion hmatch
  | succ n ih =>
    intro l pre suf tok rest hn hsplit hmatch
    match l with
    | [] =>
      rw [sanitizeAux_nil] at hsplit
      have : suf = [] := by
        rcases List.append_eq_nil.mp hsplit.symm with ⟨-, h2⟩
        exact h2
      rw [this] at hmatch
      exact Option.noConfusion hmatch
    | c :: cs =>
      simp only [List.length_cons] at hn
      cases hm : bearerMatch (c :: cs) with
      | none =>
        rw [sanitizeAux_cons_none hm] at hsplit
        match pre with
        | [] =>
          simp only [List.nil_append] at hsplit
          rw [← hsplit, bearerMatch_none_sanitize hm] at hmatch
          exact Option.noConfusion hmatch
        | p :: pre2 =>
          have htl : sanitizeAux cs = pre2 ++ suf := by
            have := congrArg List.tail hsplit
            simpa using this
          exact ih cs pre2 suf tok rest (by omega) htl hmatch
      | some pr =>
        obtain ⟨tok0, rest0⟩ := pr
        have hlen := bearerMatch_length hm
        rw [sanitizeAux_cons_some hm] at hsplit
        have hs : sanitizeAux rest0 = [] ∨ headIsWs (sanitizeAux rest0) = true := by
          rcases bearerMatch_rest hm with h0 | h0
          · left; rw [h0]; rfl
          · right; rw [sanitizeAux_head_ws]; exact h0
        rcases List.append_eq_append_iff.mp hsplit with ⟨a2, hpre, hM⟩ | ⟨c2, hpc, hsuf⟩
        · exact ih rest0 a2 suf tok rest (by omega) hM hmatch
        · have hmem : c2 ∈ redacted.tails :=
            (List.mem_tails _ _).mpr ⟨pre, hpc.symm⟩
          have hfin : ∀ x ∈ redacted.tails, x = redacted ∨ x = ([] : List Char) ∨
              ciEq (x.headD 'z') 'b' = false := by decide
          rcases hfin c2 hmem with hc | hc
          · subst hc
            rw [hsuf, bearerMatch_redacted hs] at hmatch
            injection hmatch with hmatch
            exact (congrArg Prod.fst hmatch).symm
          · match c2 with
            | [] =>
              simp only [List.nil_append] at hsuf
              rw [hsuf, bearerMatch_sanitized_empty_or_ws hs] at hmatch
              exact Option.noConfusion hmatch
            | d :: c3 =>
              have hd : ciEq d 'b' = false := by
                rcases hc with hc | hc
                · exact List.noConfusion hc
                · simpa using hc
              rw [hsuf] at hmatch
              rw [List.cons_append, bearerMatch_none_of_not_b _ hd] at hmatch
              exact Option.noConfusion hmatch

theorem sanitize_no_leak (l pre suf tok rest : List Char)
    (hsplit : sanitizeAux l = pre ++ suf) (hmatch : bearerMatch suf = some (tok, rest)) :
    tok = redTok :=
  sanitize_no_leak_aux l.length l pre suf tok rest (le_refl _) hsplit hmatch

theorem noLeak_of_check {m : String} (h : noLeakCheck m = true) : noLeak m := by
  intro pre suf tok rest hsplit hmatch
  have hmem : suf ∈ m.data.tails := (List.mem_tails _ _).mpr ⟨pre, hsplit.symm⟩
  have := List.all_eq_true.mp h suf hmem
  rw [hmatch] at this
  simpa using this

theorem noLeak_sanitize (s : String) : noLeak (sanitize s) := by
  intro pre suf tok rest hsplit hmatch
  exact sanitize_no_leak s.data pre suf tok rest hsplit hmatch

/-! ## Engine lemmas -/

theorem runFrom_nil (oracle : Oracle) (total i : Nat) :
    runFrom oracle total i [] = (⟨[], []⟩, []) := rfl

theorem runFrom_cons_ok {oracle : Oracle} {id : String} {evs : List Ev}
    (total i : Nat) (rest : List String) (h : processOne oracle id = (evs, .ok)) :
    runFrom oracle total i (id :: rest) =
      (⟨id :: (runFrom oracle total (i + 1) rest).1.success,
        (runFrom oracle total (i + 1) rest).1.failed⟩,
        evs ++ [Ev.progress (i + 1) total id]
          ++ (if i < total - 1 then [Ev.delay requestDelay] else [])
          ++ (runFrom oracle total (i + 1) rest).2) := by
  simp only [runFrom, h]

theorem runFrom_cons_fail {oracle : Oracle} {id : String} {evs : List Ev}
    {msg : String} {b : Bool} (total i : Nat) (rest : List String)
    (h : processOne oracle id = (evs, .fail msg b)) :
    runFrom oracle total i (id :: rest) =
      (⟨(runFrom oracle total (i + 1) rest).1.success,
        (id, msg) :: (runFrom oracle total (i + 1) rest).1.failed⟩,
        evs ++ (if i < total - 1 then [Ev.delay requestDelay] else [])
          ++ (runFrom oracle total (i + 1) rest).2) := by
  simp only [runFrom, h]

theorem runFrom_perm (oracle : Oracle) (total : Nat) : ∀ (ids : List String) (i : Nat),
    ((runFrom oracle total i ids).1.success ++
      (runFrom oracle total i ids).1.failed.map Prod.fst).Perm ids := by
  intro ids
  induction ids with
  | nil => intro i; simp [runFrom_nil]
  | cons id rest ih =>
    intro i
    rcases hp : processOne oracle id with ⟨evs, r⟩
    cases r with
    | ok =>
      rw [runFrom_cons_ok total i rest hp]
      simp only [List.cons_append]
      exact (ih (i + 1)).cons id
    | fail msg b =>
      rw [runFrom_cons_fail total i rest hp]
      simp only [List.map_cons]
      exact List.perm_middle.trans ((ih (i + 1)).cons id)

theorem jsOr_pos {x : Option Nat} {d : Nat} (hd : 1 ≤ d) : 1 ≤ jsOr x d := by
  cases x with
  | none => exact hd
  | some n =>
    by_cases hn : n = 0
    · simp only [jsOr, hn, if_pos]
      exact hd
    · simp only [jsOr, if_neg hn]
      omega

/-- The four possible event lists of one processed identifier. -/
theorem processOne_shape (oracle : Oracle) (id : String) :
    (processOne oracle id).1 = [.attempt id] ∨
    (processOne oracle id).1 = [.attempt id, .attempt id] ∨
    ∃ ra, (processOne oracle id).1 =
      [.attempt id, .attempt id, .delay (jsOr ra 60 * 1000), .attempt id] := by
  unfold processOne
  cases tryDelete (oracle id 0) with
  | ok => left; rfl
  | fail msg isRL =>
    cases isRL with
    | false => left; rfl
    | true =>
      cases oracle id 1 with
      | none => right; left; rfl
      | some err =>
        cases err with
        | rateLimitError ra => right; right; exact ⟨ra, rfl⟩
        | cloudflareAPIError m => right; left; rfl

theorem processOne_progress_false (oracle : Oracle) (id : String) :
    ∀ e ∈ (processOne oracle id).1, isProgressEv e = false := by
  rcases processOne_shape oracle id with h | h | ⟨ra, h⟩ <;> rw [h] <;> intro e he
  · rw [List.mem_singleton] at he; subst he; rfl
  · simp only [List.mem_cons, List.not_mem_nil, or_false] at he
    rcases he with he | he <;> subst he <;> rfl
  · simp only [List.mem_cons, List.not_mem_nil, or_false] at he
    rcases he with he | he | he | he <;> subst he <;> rfl

theorem processOne_pace_false (oracle : Oracle) (id : String) :
    ∀ e ∈ (processOne oracle id).1, isPaceEv e = false := by
  have hdelay : ∀ ra : Option Nat, isPaceEv (Ev.delay (jsOr ra 60 * 1000)) = false := by
    intro ra
    have h1 : 1 ≤ jsOr ra 60 := jsOr_pos (by omega)
    show (jsOr ra 60 * 1000 == requestDelay) = false
    have hne : jsOr ra 60 * 1000 ≠ requestDelay := by unfold requestDelay; omega
    simpa using hne
  rcases processOne_shape oracle id with h | h | ⟨ra, h⟩ <;> rw [h] <;> intro e he
  · rw [List.mem_singleton] at he; subst he; rfl
  · simp only [List.mem_cons, List.not_mem_nil, or_false] at he
    rcases he with he | he <;> subst he <;> rfl
  · simp only [List.mem_cons, List.not_mem_nil, or_false] at he
    rcases he with he | he | he | he <;> subst he
    · rfl
    · rfl
    · exact hdelay ra
    · rfl

theorem processOne_first_ok {oracle : Oracle} {id : String} (h : oracle id 0 = none) :
    processOne oracle id = ([.attempt id], .ok) := by
  unfold processOne
  rw [h]
  rfl

theorem runFrom_all_ok (oracle : Oracle) (total : Nat) :
    ∀ (ids : List String) (i : Nat), (∀ id ∈ ids, oracle id 0 = none) →
    i + ids.length = total →
    (runFrom oracle total i ids).1.success = ids ∧
    (runFrom oracle total i ids).1.failed = [] ∧
    attemptCount (runFrom oracle total i ids).2 = ids.length ∧
    (runFrom oracle total i ids).2.filter isDelayEv =
      List.replicate (ids.length - 1) (Ev.delay requestDelay) := by
  intro ids
  induction ids with
  | nil => intro i _ _; exact ⟨rfl, rfl, rfl, rfl⟩
  | cons id rest ih =>
    intro i hok htot
    simp only [List.length_cons] at htot
    have hp : processOne oracle id = ([.attempt id], .ok) :=
      processOne_first_ok (hok id (by simp))
    obtain ⟨ihs, ihf, iha, ihd⟩ :=
      ih (i + 1) (fun d hd => hok d (by simp [hd])) (by omega)
    rw [runFrom_cons_ok total i rest hp]
    refine ⟨by rw [ihs], by rw [ihf], ?_, ?_⟩
    · unfold attemptCount at iha ⊢
      simp only [List.countP_append]
      have e1 : List.countP isAttemptEv [Ev.attempt id] = 1 := rfl
      have e2 : List.countP isAttemptEv [Ev.progress (i + 1) total id] = 0 := rfl
      have e3 : List.countP isAttemptEv
          (if i < total - 1 then [Ev.delay requestDelay] else []) = 0 := by
        split
        · rfl
        · rfl
      rw [e1, e2, e3, iha]
      simp only [List.length_cons]
      omega
    · simp only [List.filter_append]
      have f1 : List.filter isDelayEv [Ev.attempt id] = [] := rfl
      have f2 : List.filter isDelayEv [Ev.progress (i + 1) total id] = [] := rfl
      rw [f1, f2, ihd]
      simp only [List.nil_append, List.length_cons]
      cases rest with
      | nil =>
        simp only [List.length_nil] at htot
        have hni : ¬ i < total - 1 := by omega
        rw [if_neg hni]
        rfl
      | cons r2 rest2 =>
        simp only [List.length_cons] at htot
        have hlt : i < total - 1 := by omega
        rw [if_pos hlt]
        have hfd : List.filter isDelayEv [Ev.delay requestDelay] =
            [Ev.delay requestDelay] := rfl
        rw [hfd]
        have hlen : (r2 :: rest2).length + 1 - 1 = ((r2 :: rest2).length - 1) + 1 := by
          simp only [List.length_cons]
          omega
        rw [hlen, List.replicate_succ]
        rfl

theorem runFrom_paceCount (oracle : Oracle) (total : Nat) :
    ∀ (ids : List String) (i : Nat), i + ids.length = total →
    paceCount (runFrom oracle total i ids).2 = ids.length - 1 := by
  intro ids
  induction ids with
  | nil => intro i _; rfl
  | cons id rest ih =>
    intro i htot
    simp only [List.length_cons] at htot
    have hrec := ih (i + 1) (by omega)
    have hzero : (processOne oracle id).1.countP isPaceEv = 0 :=
      List.countP_eq_zero.mpr (by
        intro e he
        simp [processOne_pace_false oracle id e he])
    rcases hp : processOne oracle id with ⟨evs, r⟩
    have hzero2 : evs.countP isPaceEv = 0 := by rw [hp] at hzero; exact hzero
    have hprog : ∀ c t s, List.countP isPaceEv [Ev.progress c t s] = 0 := fun _ _ _ => rfl
    have hpace : List.countP isPaceEv [Ev.delay requestDelay] = 1 := rfl
    cases r with
    | ok =>
      rw [runFrom_cons_ok total i rest hp]
      unfold paceCount at hrec ⊢
      simp only [List.countP_append, hzero2, hrec, hprog]
      cases rest with
      | nil =>
        simp only [List.length_nil] at htot
        have hni : ¬ i < total - 1 := by omega
        rw [if_neg hni]
        rfl
      | cons r2 rest2 =>
        simp only [List.length_cons] at htot
        have hlt : i < total - 1 := by omega
        rw [if_pos hlt, hpace]
        simp only [List.length_cons]
        omega
    | fail msg b =>
      rw [runFrom_cons_fail total i rest hp]
      unfold paceCount at hrec ⊢
      simp only [List.countP_append, hzero2, hrec]
      cases rest with
      | nil =>
        simp only [List.length_nil] at htot
        have hni : ¬ i < total - 1 := by omega
        rw [if_neg hni]
        rfl
      | cons r2 rest2 =>
        simp only [List.length_cons] at htot
        have hlt : i < total - 1 := by omega
        rw [if_pos hlt, hpace]
        simp only [List.length_cons]
        omega

theorem runFrom_progress_filter (oracle : Oracle) (total : Nat) :
    ∀ (ids : List String) (i : Nat),
    (runFrom oracle total i ids).2.filter isProgressEv =
      ((List.enumFrom i ids).filter (fun p => succeeds oracle p.2)).map
        (fun p => Ev.progress (p.1 + 1) total p.2) := by
  intro ids
  induction ids with
  | nil => intro i; rfl
  | cons id rest ih =>
    intro i
    have hnone : (processOne oracle id).1.filter isProgressEv = [] :=
      List.filter_eq_nil_iff.mpr (by
        intro e he
        simp [processOne_progress_false oracle id e he])
    rcases hp : processOne oracle id with ⟨evs, r⟩
    have hevs : evs.filter isProgressEv = [] := by rw [hp] at hnone; exact hnone
    have hpacefilter : (if i < total - 1 then [Ev.delay requestDelay]
        else ([] : List Ev)).filter isProgressEv = [] := by
      split
      · rfl
      · rfl
    cases r with
    | ok =>
      have hsucc : succeeds oracle id = true := by unfold succeeds; rw [hp]
      rw [runFrom_cons_ok total i rest hp]
      simp only [List.filter_append, hevs, hpacefilter]
      have hone : List.filter isProgressEv [Ev.progress (i + 1) total id] =
          [Ev.progress (i + 1) total id] := rfl
      rw [hone, ih (i + 1), List.enumFrom_cons,
        List.filter_cons_of_pos (by simpa using hsucc)]
      simp
    | fail msg b =>
      have hsucc : succeeds oracle id = false := by unfold succeeds; rw [hp]
      rw [runFrom_cons_fail total i rest hp]
      simp only [List.filter_append, hevs, hpacefilter]
      rw [ih (i + 1), List.enumFrom_cons,
        List.filter_cons_of_neg (by simp [hsucc])]
      simp

theorem tryDelete_fail {oc : CallOutcome} {msg : String} {b : Bool}
    (h : tryDelete oc = .fail msg b) : ∃ e, oc = some e ∧ msg = formatError e := by
  cases oc with
  | none => exact absurd h (by simp [tryDelete])
  | some e =>
    refine ⟨e, rfl, ?_⟩
    simp only [tryDelete] at h
    injection h with h1 h2
    exact h1.symm

theorem processOne_fail_msg {oracle : Oracle} {id msg : String} {b : Bool}
    (h : (processOne oracle id).2 = .fail msg b) : ∃ e, msg = formatError e := by
  revert h
  unfold processOne
  cases h0 : tryDelete (oracle id 0) with
  | ok => intro h; exact absurd h (by simp)
  | fail msg1 isRL =>
    cases isRL with
    | false =>
      intro h
      simp only [Bool.false_eq_true, if_false] at h
      injection h with h1 h2
      obtain ⟨e, -, he⟩ := tryDelete_fail h0
      exact ⟨e, h1 ▸ he⟩
    | true =>
      simp only [if_pos rfl]
      cases h1 : oracle id 1 with
      | none =>
        intro h
        injection h with hm hb
        obtain ⟨e, -, he⟩ := tryDelete_fail h0
        exact ⟨e, hm ▸ he⟩
      | some err =>
        cases err with
        | rateLimitError ra =>
          intro h
          obtain ⟨e, -, he⟩ := tryDelete_fail h
          exact ⟨e, he⟩
        | cloudflareAPIError m =>
          intro h
          injection h with hm hb
          obtain ⟨e, -, he⟩ := tryDelete_fail h0
          exact ⟨e, hm ▸ he⟩

theorem runFrom_failed_msg (oracle : Oracle) (total : Nat) :
    ∀ (ids : List String) (i : Nat) (id msg : String),
    (id, msg) ∈ (runFrom oracle total i ids).1.failed → ∃ e, msg = formatError e := by
  intro ids
  induction ids with
  | nil => intro i id msg h; exact absurd h (by simp [runFrom_nil])
  | cons d rest ih =>
    intro i id msg h
    rcases hp : processOne oracle d with ⟨evs, r⟩
    cases r with
    | ok =>
      rw [runFrom_cons_ok total i rest hp] at h
      exact ih (i + 1) id msg h
    | fail msg1 b =>
      rw [runFrom_cons_fail total i rest hp] at h
      simp only [List.mem_cons] at h
      rcases h with h | h
      · injection h with h1 h2
        have : (processOne oracle d).2 = .fail msg1 b := by rw [hp]
        obtain ⟨e, he⟩ := processOne_fail_msg this
        exact ⟨e, h2 ▸ he⟩
      · exact ih (i + 1) id msg h

/-! ## Claims -/

/-- C1 counterexample: the engine entry point does not refuse the
position-0 identifier.  Called directly with the identifier of the head of
the listing, deleteDeployments attempts it once and reports it deleted. -/
theorem c1_counterexample :
    demoDeployments.head? = some activeDeployment ∧
    (deleteDeployments oracleAllOk [activeDeployment.id]).1.success =
      [activeDeployment.id] ∧
    attemptCount (deleteDeployments oracleAllOk [activeDeployment.id]).2 = 1 := by
  refine ⟨rfl, by decide, by decide⟩

/-- C1 amended: the protection of the active resource lives only in the
selection layer: when the listed identifiers are distinct, the identifier
at position 0 is not in the deletable set that delete-all dispatches; the
engine itself filters nothing and accounts for every supplied identifier
in its report. -/
theorem c1_amended (deployments : List Deployment) (d : Deployment)
    (hnd : (deployments.map Deployment.id).Nodup)
    (hd : deployments.head? = some d) :
    d.id ∉ dispatchIds (deletableDeployments deployments) ∧
    ∀ (oracle : Oracle) (ids : List String),
      ((deleteDeployments oracle ids).1.success ++
        (deleteDeployments oracle ids).1.failed.map Prod.fst).Perm ids := by
  constructor
  · cases deployments with
    | nil => exact absurd hd (by simp)
    | cons d0 rest =>
      have hd0 : d0 = d := by
        rw [List.head?_cons] at hd
        injection hd
      subst hd0
      show d0.id ∉ dispatchIds ((d0 :: rest).drop 1)
      simp only [List.drop_one, List.tail_cons, dispatchIds]
      simp only [List.map_cons, List.nodup_cons] at hnd
      exact hnd.1
  · intro oracle ids
    exact runFrom_perm oracle ids.length ids 0

theorem c1_witness :
    activeDeployment.id ∉ dispatchIds (deletableDeployments demoDeployments) ∧
    ∀ (oracle : Oracle) (ids : List String),
      ((deleteDeployments oracle ids).1.success ++
        (deleteDeployments oracle ids).1.failed.map Prod.fst).Perm ids :=
  c1_amended demoDeployments activeDeployment (by decide) rfl

/-- C2: the code contradicts the claimed retry discipline.  On a
rate-limited first attempt for identifier x with suggested wait 5, the
engine makes a second attempt immediately without any wait; when that
second attempt is rate limited again with suggested wait 7 it delays 7000
milliseconds, taken from the second error with an or-else of 60, not
max of 5 and 60 from the first, and then makes a third attempt: three
attempts in total for one identifier. -/
theorem c2_code_behaviour :
    (deleteDeployments rateLimitTwiceOracle ["x"]).2 =
      [.attempt "x", .attempt "x", .delay 7000, .attempt "x",
        .progress 1 1 "x"] ∧
    attemptCount (deleteDeployments rateLimitTwiceOracle ["x"]).2 = 3 := by
  refine ⟨by decide, by decide⟩

/-- C3: the code discards a successful retry.  On a rate-limited first
attempt for identifier x, the second deleteDeployment call succeeds, yet
the engine keeps the original failure result and reports x failed with the
rate-limit message of the first attempt. -/
theorem c3_code_behaviour :
    (deleteDeployments retrySucceedsOracle ["x"]).1 =
      ⟨[], [("x", "Rate limit exceeded. Please wait before retrying.")]⟩ ∧
    (deleteDeployments retrySucceedsOracle ["x"]).2 =
      [.attempt "x", .attempt "x"] := by
  refine ⟨by decide, by decide⟩

/-- C4 counterexample: with a duplicated input identifier the report is
not a set partition: the identifier x appears twice in the succeeded
list. -/
theorem c4_counterexample :
    (deleteDeployments (fun _ _ => none) ["x", "x"]).1.success = ["x", "x"] ∧
    (deleteDeployments (fun _ _ => none) ["x", "x"]).1.success.count "x" = 2 := by
  refine ⟨by decide, by decide⟩

/-- C4 amended: for every input list, also one with duplicates, the
report accounts for every input position exactly once: succeeded plus
failed identifiers is a permutation of the input, so an identifier
supplied twice is processed once per occurrence, and the engine is a
total function that surfaces failures only through the report and never
aborts the remainder.  When, additionally, the input identifiers are
pairwise distinct, the two sets are disjoint, duplicate free, and every
input identifier lands in exactly one of them. -/
theorem c4_amended (oracle : Oracle) (ids : List String) :
    ((deleteDeployments oracle ids).1.success ++
      (deleteDeployments oracle ids).1.failed.map Prod.fst).Perm ids ∧
    (ids.Nodup →
      ((deleteDeployments oracle ids).1.success ++
        (deleteDeployments oracle ids).1.failed.map Prod.fst).Nodup ∧
      ∀ id ∈ ids, (id ∈ (deleteDeployments oracle ids).1.success ↔
        ¬ id ∈ (deleteDeployments oracle ids).1.failed.map Prod.fst)) := by
  have hperm := runFrom_perm oracle ids.length ids 0
  refine ⟨hperm, ?_⟩
  intro hnd
  have hnodup : ((deleteDeployments oracle ids).1.success ++
      (deleteDeployments oracle ids).1.failed.map Prod.fst).Nodup :=
    hperm.nodup_iff.mpr hnd
  refine ⟨hnodup, ?_⟩
  intro id hid
  have hmem : id ∈ (deleteDeployments oracle ids).1.success ++
      (deleteDeployments oracle ids).1.failed.map Prod.fst :=
    hperm.mem_iff.mpr hid
  rw [List.nodup_append] at hnodup
  obtain ⟨-, -, hdisj⟩ := hnodup
  constructor
  · intro hs hf
    exact hdisj hs hf
  · intro hnf
    rcases List.mem_append.mp hmem with h | h
    · exact h
    · exact absurd h hnf

theorem c4_witness :
    ((deleteDeployments (fun _ _ => none) ["a", "b"]).1.success ++
      (deleteDeployments (fun _ _ => none) ["a", "b"]).1.failed.map Prod.fst).Perm
      ["a", "b"] ∧
    ((deleteDeployments (fun _ _ => none) ["a", "b"]).1.success ++
      (deleteDeployments (fun _ _ => none) ["a", "b"]).1.failed.map Prod.fst).Nodup ∧
    ∀ id ∈ ["a", "b"],
      (id ∈ (deleteDeployments (fun _ _ => none) ["a", "b"]).1.success ↔
        ¬ id ∈ (deleteDeployments (fun _ _ => none) ["a", "b"]).1.failed.map
          Prod.fst) :=
  ⟨(c4_amended (fun _ _ => none) ["a", "b"]).1,
    (c4_amended (fun _ _ => none) ["a", "b"]).2 (by decide)⟩

/-- C5: when every first attempt succeeds the engine issues exactly one
attempt per identifier, the succeeded list is the input in order, the
failed list is empty, and the delays of the trace are exactly the fixed
pacing: one 200 millisecond delay after each identifier that is not the
last, hence length minus one of them; moreover for every oracle and every
input the number of pacing delays is length minus one, the pacing being
unconditional on outcomes. -/
theorem c5_all_success (oracle : Oracle) (ids : List String)
    (h : ∀ id ∈ ids, oracle id 0 = none) :
    (deleteDeployments oracle ids).1.success = ids ∧
    (deleteDeployments oracle ids).1.failed = [] ∧
    attemptCount (deleteDeployments oracle ids).2 = ids.length ∧
    (deleteDeployments oracle ids).2.filter isDelayEv =
      List.replicate (ids.length - 1) (Ev.delay requestDelay) ∧
    ∀ (oracle2 : Oracle) (ids2 : List String),
      paceCount (deleteDeployments oracle2 ids2).2 = ids2.length - 1 := by
  obtain ⟨h1, h2, h3, h4⟩ := runFrom_all_ok oracle ids.length ids 0 h (by omega)
  exact ⟨h1, h2, h3, h4,
    fun oracle2 ids2 => runFrom_paceCount oracle2 ids2.length ids2 0 (by omega)⟩

theorem c5_witness :
    (deleteDeployments (fun _ _ => none) ["a", "b", "c"]).1.success =
      ["a", "b", "c"] ∧
    (deleteDeployments (fun _ _ => none) ["a", "b", "c"]).1.failed = [] ∧
    attemptCount (deleteDeployments (fun _ _ => none) ["a", "b", "c"]).2 = 3 ∧
    (deleteDeployments (fun _ _ => none) ["a", "b", "c"]).2.filter isDelayEv =
      List.replicate 2 (Ev.delay requestDelay) ∧
    ∀ (oracle2 : Oracle) (ids2 : List String),
      paceCount (deleteDeployments oracle2 ids2).2 = ids2.length - 1 :=
  c5_all_success (fun _ _ => none) ["a", "b", "c"] (fun _ _ => rfl)

/-- C6 counterexample: the first identifier fails and the second succeeds;
the only progress invocation carries completed count 2 although only one
identifier of the whole batch ever completes successfully, so the first
argument is not the number of successes. -/
theorem c6_counterexample :
    (deleteDeployments failFirstOracle ["a", "b"]).2.filter isProgressEv =
      [Ev.progress 2 2 "b"] ∧
    (deleteDeployments failFirstOracle ["a", "b"]).1.success = ["b"] := by
  refine ⟨by decide, by decide⟩

/-- C6 amended: the progress callback fires exactly once per successful
identifier, in order, with the identifier and the batch size, but its
first argument is the position of the identifier in the input plus one,
which equals the number of successes so far only when no earlier
identifier failed. -/
theorem c6_amended (oracle : Oracle) (ids : List String) :
    (deleteDeployments oracle ids).2.filter isProgressEv =
      ((List.enumFrom 0 ids).filter (fun p => succeeds oracle p.2)).map
        (fun p => Ev.progress (p.1 + 1) ids.length p.2) :=
  runFrom_progress_filter oracle ids.length ids 0

/-- C7: the request method realizes exactly the taxonomy of the spec:
status 429 gives RateLimited with the optional Retry-After seconds, 403
PermissionDenied, 404 NotFound, and otherwise an unparseable body or an
envelope with a false success flag gives Transport, the latter surfacing
the first reported error message. -/
theorem c7_request_classification (resp : HttpResponse) :
    toSpecOutcome (request resp) = specClassify resp := by
  unfold request specClassify
  by_cases h1 : resp.status = 429
  · rw [if_pos h1, if_pos h1]
    rfl
  · rw [if_neg h1, if_neg h1]
    by_cases h2 : resp.status = 403
    · rw [if_pos h2, if_pos h2]
      rfl
    · rw [if_neg h2, if_neg h2]
      by_cases h3 : resp.status = 404
      · rw [if_pos h3, if_pos h3]
        rfl
      · rw [if_neg h3, if_neg h3]
        cases resp.body with
        | none =>
          show (if some resp.status = some 403 then SpecOutcome.permissionDenied
            else if some resp.status = some 404 then SpecOutcome.notFound
            else SpecOutcome.transport (sanitize (parseFailMessage resp.statusText))) =
            SpecOutcome.transport (sanitize (parseFailMessage resp.statusText))
          rw [if_neg (by simp [h2]), if_neg (by simp [h3])]
        | some env =>
          show toSpecOutcome (if env.success = true then RequestResult.ok
              else RequestResult.apiError (sanitize (surfacedEnvelopeMessage env))
                (some resp.status)) =
            (if env.success = true then SpecOutcome.ok
              else SpecOutcome.transport (sanitize (surfacedEnvelopeMessage env)))
          by_cases hs : env.success = true
          · rw [if_pos hs, if_pos hs]
            rfl
          · rw [if_neg hs, if_neg hs]
            show (if some resp.status = some 403 then SpecOutcome.permissionDenied
              else if some resp.status = some 404 then SpecOutcome.notFound
              else SpecOutcome.transport (sanitize (surfacedEnvelopeMessage env))) = _
            rw [if_neg (by simp [h2]), if_neg (by simp [h3])]

/-- C8: credential redaction at the client boundary.  Every failure
message of the batch report, and every message on an error thrown by
request, satisfies noLeak: any bearer-token-shaped substring it still
contains carries the redaction marker as its token, never a credential
value. -/
theorem c8_redaction :
    (∀ (oracle : Oracle) (ids : List String) (id msg : String),
      (id, msg) ∈ (deleteDeployments oracle ids).1.failed → noLeak msg) ∧
    (∀ (resp : HttpResponse) (m : String) (c : Option Nat),
      request resp = RequestResult.apiError m c → noLeak m) := by
  constructor
  · intro oracle ids id msg hmem
    obtain ⟨e, he⟩ := runFrom_failed_msg oracle ids.length ids 0 id msg hmem
    rw [he]
    exact noLeak_sanitize (errorMessage e)
  · intro resp m c h
    unfold request at h
    by_cases h1 : resp.status = 429
    · rw [if_pos h1] at h
      exact absurd h (by simp)
    · rw [if_neg h1] at h
      by_cases h2 : resp.status = 403
      · rw [if_pos h2] at h
        injection h with hm hc
        rw [← hm]
        exact noLeak_of_check (by decide)
      · rw [if_neg h2] at h
        by_cases h3 : resp.status = 404
        · rw [if_pos h3] at h
          injection h with hm hc
          rw [← hm]
          exact noLeak_of_check (by decide)
        · rw [if_neg h3] at h
          revert h
          cases resp.body with
          | none =>
            intro h
            replace h : RequestResult.apiError
                (sanitize (parseFailMessage resp.statusText)) (some resp.status) =
                RequestResult.apiError m c := h
            injection h with hm hc
            rw [← hm]
            exact noLeak_sanitize _
          | some env =>
            intro h
            replace h : (if env.success = true then RequestResult.ok
                else RequestResult.apiError (sanitize (surfacedEnvelopeMessage env))
                  (some resp.status)) = RequestResult.apiError m c := h
            cases hs : env.success with
            | true => rw [if_pos hs] at h; exact absurd h (by simp)
            | false =>
              rw [if_neg (by simp [hs])] at h
              injection h with hm hc
              rw [← hm]
              exact noLeak_sanitize _

theorem c8_witness : noLeak "Bearer [REDACTED] token" :=
  c8_redaction.1 leakOracle ["d1"] "d1" "Bearer [REDACTED] token" (by decide)

/-- C9 counterexample: no deduplication happens before dispatch: handed
the identifier x twice, the engine attempts it twice and reports it
deleted twice. -/
theorem c9_counterexample :
    attemptCount (deleteDeployments oracleAllOk ["x", "x"]).2 = 2 ∧
    (deleteDeployments oracleAllOk ["x", "x"]).1.failed = [] := by
  refine ⟨by decide, by decide⟩

/-- C9 amended: nothing in the dispatch path removes duplicates; what
holds is that the interactive picker returns a sublist of the listed
entries, so whenever the listing has pairwise distinct identifiers the
identifier list handed to the engine is duplicate free. -/
theorem c9_amended (deployments toDelete : List Deployment)
    (hsub : toDelete.Sublist deployments)
    (hnd : (deployments.map Deployment.id).Nodup) :
    (dispatchIds toDelete).Nodup := by
  unfold dispatchIds
  exact List.Nodup.sublist (hsub.map Deployment.id) hnd

theorem c9_witness : (dispatchIds [oldDeployment]).Nodup :=
  c9_amended demoDeployments [oldDeployment] (by decide) (by decide)

/-- C10: the sanitizer is idempotent: applying it to an already sanitized
message, in particular to one containing the redaction marker, changes
nothing. -/
theorem c10_sanitize_idempotent (m : String) : sanitize (sanitize m) = sanitize m := by
  show String.mk (sanitizeAux (sanitizeAux m.data)) = String.mk (sanitizeAux m.data)
  exact congrArg String.mk (sanitizeAux_idem m.data)

end CfPreview
